import Mathlib

/-!
Verification of the beads_viewer graph analysis engine.

This file gives a shallow embedding, in Lean, of the analysis core of the
`beads_viewer` (bv) repository and proves properties of it:

* `pkg/model` — the `Issue` and `Dependency` records (the fields the
  analyzer reads).
* `pkg/analysis` (`NewAnalyzer`, lines 124–175 of the analyzer source) —
  graph construction on top of gonum's `simple.DirectedGraph`.
* `pkg/analysis` (`Analyze`, `computeHeights`) — degree counts, topological
  order (gonum `topo.Sort` followed by an explicit reversal) and the
  critical-path height computation.
* `pkg/analysis/insights.go` (`getTopItems`, `GenerateInsights`) — top-N
  insight lists.
* `pkg/loader/http.go` (`toModelIssue`) — flattening of the wire format's
  `dependsOn` / `blockedBy` / `parent` / `blocks` / `children` fields into
  typed dependencies.

Modelling conventions:

* Issue ids are `String`s, as in the source.  gonum node ids (`int64`) are
  in bijection with issue ids via `idToNode` / `nodeToID` whenever the
  input ids are distinct (the spec requires ids to be unique per
  snapshot); the embedding therefore identifies graph nodes with their
  issue-id strings.  Theorems that depend on this identification carry a
  `Nodup` hypothesis on the input ids.
* gonum's `simple.DirectedGraph` stores at most one (untyped) edge per
  ordered pair of distinct nodes; `SetEdge` replaces an existing edge and
  aborts the process (Go `panic "simple: adding self edge"`) when both
  endpoints coincide.  The embedding models the edge set as a
  duplicate-free list of ordered pairs and models the abort by returning
  `none`.
* Go `float64` metric values are modelled as `Rat`.  Every value a proof
  or example manipulates is a small integer, which `float64` represents
  exactly, so rational arithmetic agrees with the source's floating-point
  arithmetic on those values.  Critical-path heights are the naturals
  `1, 2, …, |V|`, all exact in `float64`, and are modelled as `Nat`.
* Go map iteration order is unspecified (and deliberately randomised by
  the runtime).  Functions that range over a map in the source take the
  iteration order as an explicit list argument in the embedding.
-/

namespace BeadsViewer

/-- model.Dependency: a typed directed dependency owned by an issue
(fields `IssueID`, `DependsOnID`, `Type` of the Go struct). -/
structure Dependency where
  issueID : String
  dependsOnID : String
  depType : String
deriving Repr, DecidableEq

/-- model.Issue: the fields of the Go struct that graph construction
reads (`ID` and `Dependencies`). -/
structure Issue where
  id : String
  dependencies : List Dependency
deriving Repr, DecidableEq

/-- model.DepBlocks. -/
def depBlocks : String := "blocks"

/-- model.DepParentChild. -/
def depParentChild : String := "parent-child"

/-- model.DepRelated. -/
def depRelated : String := "related"

/-- The analysis graph: the node list (issue ids in input order, as
inserted by step 1 of `NewAnalyzer`) together with the edge set of the
gonum `simple.DirectedGraph`, kept as a duplicate-free list of ordered
pairs in insertion order. -/
structure Graph where
  nodes : List String
  edges : List (String × String)
deriving Repr, DecidableEq

/-- Step 1 of `NewAnalyzer`: one graph node per input issue, keyed by the
issue's id. -/
def nodeIDs (issues : List Issue) : List String :=
  issues.map Issue.id

/-- gonum `simple.DirectedGraph.SetEdge`: replaces any existing edge
between the same ordered pair (so duplicates merge), and panics — here
`none` — when the two endpoints are equal. -/
def setEdge (es : List (String × String)) (u v : String) :
    Option (List (String × String)) :=
  if u = v then none
  else if (u, v) ∈ es then some es
  else some (es ++ [(u, v)])

/-- The inner loop of step 2 of `NewAnalyzer`: for one issue `u`, walk its
dependency list and call `SetEdge u → dep.DependsOnID` for every
dependency whose target id exists in `idToNode`.  No dependency-type test
appears in the source. -/
def addIssueEdges (ids : List String) (u : String) :
    List Dependency → List (String × String) → Option (List (String × String))
  | [], es => some es
  | dep :: rest, es =>
    if dep.dependsOnID ∈ ids then
      match setEdge es u dep.dependsOnID with
      | none => none
      | some es' => addIssueEdges ids u rest es'
    else
      addIssueEdges ids u rest es

/-- The outer loop of step 2 of `NewAnalyzer`. -/
def addEdgesForIssues (ids : List String) :
    List Issue → List (String × String) → Option (List (String × String))
  | [], es => some es
  | i :: rest, es =>
    match addIssueEdges ids i.id i.dependencies es with
    | none => none
    | some es' => addEdgesForIssues ids rest es'

/-- `NewAnalyzer`: build the analysis graph from the input issues.
`none` models the gonum panic on a self edge; otherwise the node list is
the input ids and the edge list is the accumulated edge set. -/
def NewAnalyzer (issues : List Issue) : Option Graph :=
  match addEdgesForIssues (nodeIDs issues) issues [] with
  | none => none
  | some es => some ⟨nodeIDs issues, es⟩

/-- `NewAnalyzer` emits no warnings: the function body contains no
logging, printing or warning-channel calls; dependencies whose target id
is unknown are skipped silently by the `exists` test.  The warning output
of graph construction is therefore the constant empty list. -/
def newAnalyzerWarnings (_issues : List Issue) : List String := []

/-- Analyze step 1 (gonum `To(n).Len()`): number of distinct in-neighbours
of `v`, which equals the number of stored edges into `v` because the edge
set is duplicate-free. -/
def inDegree (g : Graph) (v : String) : Nat :=
  (g.edges.filter (fun e => e.2 = v)).length

/-- Analyze step 1 (gonum `From(n).Len()`): number of distinct
out-neighbours of `v`. -/
def outDegree (g : Graph) (v : String) : Nat :=
  (g.edges.filter (fun e => e.1 = v)).length

/-- Does `v` have an incoming edge whose source is still in `remaining`?
Used by the topological-sort model. -/
def hasInEdge (edges : List (String × String)) (remaining : List String)
    (v : String) : Bool :=
  edges.any (fun e => e.2 == v && remaining.contains e.1)

/-- Kahn's algorithm with explicit fuel: repeatedly remove the first
remaining node with no incoming edge from a remaining node.  Models gonum
`topo.Sort`, whose contract is that for every edge u → v, u precedes v in
the returned order, with an error (here `none`) exactly when the graph has
a cycle. -/
def kahnAux (edges : List (String × String)) :
    Nat → List String → Option (List String)
  | _, [] => some []
  | 0, _ :: _ => none
  | fuel + 1, n :: ns =>
    match (n :: ns).find? (fun v => !hasInEdge edges (n :: ns) v) with
    | none => none
    | some v => (kahnAux edges fuel ((n :: ns).erase v)).map (fun r => v :: r)

/-- gonum `topo.Sort` on the analysis graph. -/
def kahn (edges : List (String × String)) (nodes : List String) :
    Option (List String) :=
  kahnAux edges nodes.length nodes

/-- Analyze step 5: the published `stats.TopologicalOrder`.  The source
takes gonum's sort result and appends it in REVERSE index order
(`for i := len(sorted)-1; i >= 0; i--`), and leaves the field empty when
`topo.Sort` fails. -/
def topologicalOrder (g : Graph) : List String :=
  match kahn g.edges g.nodes with
  | some sorted => sorted.reverse
  | none => []

/-- Association-list lookup (first match), modelling a Go map read whose
second result reports presence (`h, ok := heights[p.ID()]`). -/
def lookupH : List (String × Nat) → String → Option Nat
  | [], _ => none
  | (k, h) :: rest, x => if k = x then some h else lookupH rest x

/-- The body of the loop of `computeHeights`: for the next node `n` of the
topological order, fold over the incoming edges, taking the max of the
heights already recorded for the edge sources (sources not yet recorded
are skipped, mirroring the `ok` test), then record
`heights[n] = 1 + maxParentHeight`. -/
def heightStep (edges : List (String × String))
    (acc : List (String × Nat)) (n : String) : List (String × Nat) :=
  let m := edges.foldl
    (fun best e =>
      if e.2 = n then
        match lookupH acc e.1 with
        | some h => max best h
        | none => best
      else best) 0
  acc ++ [(n, 1 + m)]

/-- `computeHeights`: walk the topological order accumulating heights. -/
def computeHeights (edges : List (String × String))
    (sorted : List String) : List (String × Nat) :=
  sorted.foldl (heightStep edges) []

/-- Analyze step 6: `stats.CriticalPathScore` as an association list.  The
computation runs only when `topo.Sort` succeeded; otherwise the field
stays the empty map (every Go map read then yields the zero value). -/
def criticalPathScores (g : Graph) : List (String × Nat) :=
  match kahn g.edges g.nodes with
  | some sorted => computeHeights g.edges sorted
  | none => []

/-- Reading `stats.CriticalPathScore[v]` in Go: zero for absent keys. -/
def heightsOf (g : Graph) (v : String) : Nat :=
  (lookupH (criticalPathScores g) v).getD 0

/-- The mathematical right-hand side of the critical-path recurrence:
`max { f u : (u, v) ∈ edges }`, with `0` for an empty set of parents. -/
def parentMax (edges : List (String × String)) (f : String → Nat)
    (v : String) : Nat :=
  edges.foldl (fun best e => if e.2 = v then max best (f e.1) else best) 0

/-- analysis.InsightItem. -/
structure InsightItem where
  id : String
  value : Rat
deriving Repr, DecidableEq

/-- The comparison `getTopItems` sorts by: value descending, i.e. the
entry with the larger (or equal) value goes first. -/
def valueGE (a b : String × Rat) : Prop := b.2 ≤ a.2

instance : DecidableRel valueGE := fun a b => inferInstanceAs (Decidable (b.2 ≤ a.2))

instance : IsTotal (String × Rat) valueGE :=
  ⟨fun a b => (le_total a.2 b.2).symm⟩

instance : IsTrans (String × Rat) valueGE :=
  ⟨fun _ _ _ hab hbc => le_trans hbc hab⟩

/-- `getTopItems`: the source ranges over a Go map (`for k, v := range m`)
— an iteration order the language leaves unspecified — collects the
entries into a slice, sorts it with `sort.Slice` by value descending with
no tie-break, and keeps the first `limit` entries.  The embedding takes
the iteration order as the explicit `entries` list.  For slices of at
most 12 elements Go's `sort.Slice` runs a plain insertion sort, which
preserves the input order of equal elements, exactly as
`List.insertionSort` with the reflexive order `valueGE` does. -/
def getTopItems (entries : List (String × Rat)) (limit : Nat) :
    List InsightItem :=
  ((entries.insertionSort valueGE).take limit).map
    (fun e => ⟨e.1, e.2⟩)

/-- analysis.GraphStats: the per-node metric maps consumed by
`GenerateInsights`, each given in its (unspecified) Go map iteration
order, plus the cycle list and density. -/
structure GraphStats where
  betweenness : List (String × Rat)
  criticalPathScore : List (String × Rat)
  eigenvector : List (String × Rat)
  hubs : List (String × Rat)
  authorities : List (String × Rat)
  cycles : List (List String)
  density : Rat
deriving Repr, DecidableEq

/-- analysis.Insights: the fields `GenerateInsights` writes, plus the
`Orphans` field declared on the struct. -/
structure Insights where
  bottlenecks : List InsightItem
  keystones : List InsightItem
  influencers : List InsightItem
  hubsList : List InsightItem
  authoritiesList : List InsightItem
  orphans : List String
  cyclesList : List (List String)
  clusterDensity : Rat
deriving Repr, DecidableEq

/-- `GenerateInsights`: five `getTopItems` calls, cycles and density are
copied through, and no other field of the literal is assigned — in
particular `Orphans` keeps its Go zero value (the empty list). -/
def GenerateInsights (s : GraphStats) (limit : Nat) : Insights :=
  { bottlenecks := getTopItems s.betweenness limit
    keystones := getTopItems s.criticalPathScore limit
    influencers := getTopItems s.eigenvector limit
    hubsList := getTopItems s.hubs limit
    authoritiesList := getTopItems s.authorities limit
    orphans := []
    cyclesList := s.cycles
    clusterDensity := s.density }

/-- loader.protoIssue: the wire-format fields that `toModelIssue` turns
into dependencies. -/
structure ProtoIssue where
  id : String
  parent : String
  dependsOn : List String
  blocks : List String
  blockedBy : List String
  children : List String
deriving Repr, DecidableEq

/-- One step of the `dependsOn` / `blockedBy` loops of `toModelIssue`:
skip empty ids and ids already seen, otherwise append an outgoing `blocks`
dependency and mark the id seen.  The accumulator pairs the dependency
list with the `seen` set. -/
def depStep (issueID : String) (acc : List Dependency × List String)
    (dep : String) : List Dependency × List String :=
  if dep = "" ∨ dep ∈ acc.2 then acc
  else (acc.1 ++ [⟨issueID, dep, depBlocks⟩], acc.2 ++ [dep])

/-- The dependency-flattening portion of `toModelIssue`: `dependsOn` then
`blockedBy` become deduplicated `blocks` dependencies; `parent` becomes a
`parent-child` dependency only when it is non-empty AND not already in
`seen` (`p.Parent != "" && !seen[p.Parent]` in the source); `blocks` and
`children` are never read. -/
def toModelIssueDeps (p : ProtoIssue) : List Dependency :=
  let acc1 := p.dependsOn.foldl (depStep p.id) ([], [])
  let acc2 := p.blockedBy.foldl (depStep p.id) acc1
  if p.parent ≠ "" ∧ p.parent ∉ acc2.2 then
    acc2.1 ++ [⟨p.id, p.parent, depParentChild⟩]
  else
    acc2.1

/-! ### Graph construction lemmas -/

theorem setEdge_some_subset {es es' : List (String × String)} {u v : String}
    (h : setEdge es u v = some es') : es ⊆ es' := by
  unfold setEdge at h
  split_ifs at h with h1 h2
  · exact (Option.some.injEq _ _ ▸ h) ▸ fun _ hx => hx
  · cases h
    exact fun x hx => List.mem_append_left _ hx

theorem setEdge_some_mem {es es' : List (String × String)} {u v : String}
    (h : setEdge es u v = some es') : (u, v) ∈ es' := by
  unfold setEdge at h
  split_ifs at h with h1 h2
  · cases h; exact h2
  · cases h; exact List.mem_append_right _ (List.mem_singleton_self _)

theorem setEdge_mem_iff {es es' : List (String × String)} {u v : String}
    (h : setEdge es u v = some es') :
    ∀ e, e ∈ es' ↔ e ∈ es ∨ e = (u, v) := by
  intro e
  unfold setEdge at h
  split_ifs at h with h1 h2
  · cases h
    constructor
    · exact fun hx => Or.inl hx
    · rintro (hx | rfl)
      · exact hx
      · exact h2
  · cases h
    simp

theorem setEdge_nodup {es es' : List (String × String)} {u v : String}
    (h : setEdge es u v = some es') (hn : es.Nodup) : es'.Nodup := by
  unfold setEdge at h
  split_ifs at h with h1 h2
  · cases h; exact hn
  · cases h
    simpa [List.nodup_append, hn] using h2

theorem addIssueEdges_subset {ids : List String} {u : String} :
    ∀ {deps : List Dependency} {es es' : List (String × String)},
      addIssueEdges ids u deps es = some es' → es ⊆ es' := by
  intro deps
  induction deps with
  | nil => intro es es' h; cases h; exact fun _ hx => hx
  | cons d rest ih =>
    intro es es' h
    unfold addIssueEdges at h
    split_ifs at h with hd
    · cases hse : setEdge es u d.dependsOnID with
      | none => rw [hse] at h; cases h
      | some es₁ =>
        rw [hse] at h
        exact fun x hx => ih h (setEdge_some_subset hse hx)
    · exact ih h

theorem addIssueEdges_nodup {ids : List String} {u : String} :
    ∀ {deps : List Dependency} {es es' : List (String × String)},
      addIssueEdges ids u deps es = some es' → es.Nodup → es'.Nodup := by
  intro deps
  induction deps with
  | nil => intro es es' h hn; cases h; exact hn
  | cons d rest ih =>
    intro es es' h hn
    unfold addIssueEdges at h
    split_ifs at h with hd
    · cases hse : setEdge es u d.dependsOnID with
      | none => rw [hse] at h; cases h
      | some es₁ =>
        rw [hse] at h
        exact ih h (setEdge_nodup hse hn)
    · exact ih h hn

theorem addIssueEdges_mem {ids : List String} {u : String} :
    ∀ {deps : List Dependency} {es es' : List (String × String)},
      addIssueEdges ids u deps es = some es' →
      ∀ d ∈ deps, d.dependsOnID ∈ ids → (u, d.dependsOnID) ∈ es' := by
  intro deps
  induction deps with
  | nil => intro es es' _ d hd; cases hd
  | cons d₀ rest ih =>
    intro es es' h d hd ht
    unfold addIssueEdges at h
    rcases List.mem_cons.mp hd with rfl | hdrest
    · rw [if_pos ht] at h
      cases hse : setEdge es u d.dependsOnID with
      | none => rw [hse] at h; cases h
      | some es₁ =>
        rw [hse] at h
        exact addIssueEdges_subset h (setEdge_some_mem hse)
    · split_ifs at h with hd₀
      · cases hse : setEdge es u d₀.dependsOnID with
        | none => rw [hse] at h; cases h
        | some es₁ =>
          rw [hse] at h
          exact ih h d hdrest ht
      · exact ih h d hdrest ht

theorem addIssueEdges_forall {ids : List String} {u : String}
    {P : String × String → Prop} :
    ∀ {deps : List Dependency} {es es' : List (String × String)},
      addIssueEdges ids u deps es = some es' →
      (∀ e ∈ es, P e) → (∀ t ∈ ids, P (u, t)) →
      ∀ e ∈ es', P e := by
  intro deps
  induction deps with
  | nil => intro es es' h hes _; cases h; exact hes
  | cons d rest ih =>
    intro es es' h hes hnew
    unfold addIssueEdges at h
    split_ifs at h with hd
    · cases hse : setEdge es u d.dependsOnID with
      | none => rw [hse] at h; cases h
      | some es₁ =>
        rw [hse] at h
        refine ih h ?_ hnew
        intro e he
        rcases (setEdge_mem_iff hse e).mp he with he' | rfl
        · exact hes e he'
        · exact hnew _ hd
    · exact ih h hes hnew

theorem addEdgesForIssues_subset {ids : List String} :
    ∀ {issues : List Issue} {es es' : List (String × String)},
      addEdgesForIssues ids issues es = some es' → es ⊆ es' := by
  intro issues
  induction issues with
  | nil => intro es es' h; cases h; exact fun _ hx => hx
  | cons i rest ih =>
    intro es es' h
    unfold addEdgesForIssues at h
    cases hie : addIssueEdges ids i.id i.dependencies es with
    | none => rw [hie] at h; cases h
    | some es₁ =>
      rw [hie] at h
      exact fun x hx => ih h (addIssueEdges_subset hie hx)

theorem addEdgesForIssues_nodup {ids : List String} :
    ∀ {issues : List Issue} {es es' : List (String × String)},
      addEdgesForIssues ids issues es = some es' → es.Nodup → es'.Nodup := by
  intro issues
  induction issues with
  | nil => intro es es' h hn; cases h; exact hn
  | cons i rest ih =>
    intro es es' h hn
    unfold addEdgesForIssues at h
    cases hie : addIssueEdges ids i.id i.dependencies es with
    | none => rw [hie] at h; cases h
    | some es₁ =>
      rw [hie] at h
      exact ih h (addIssueEdges_nodup hie hn)

theorem addEdgesForIssues_mem {ids : List String} :
    ∀ {issues : List Issue} {es es' : List (String × String)},
      addEdgesForIssues ids issues es = some es' →
      ∀ i ∈ issues, ∀ d ∈ i.dependencies, d.dependsOnID ∈ ids →
        (i.id, d.dependsOnID) ∈ es' := by
  intro issues
  induction issues with
  | nil => intro es es' _ i hi; cases hi
  | cons i₀ rest ih =>
    intro es es' h i hi d hd ht
    unfold addEdgesForIssues at h
    cases hie : addIssueEdges ids i₀.id i₀.dependencies es with
    | none => rw [hie] at h; cases h
    | some es₁ =>
      rw [hie] at h
      rcases List.mem_cons.mp hi with rfl | hirest
      · exact addEdgesForIssues_subset h (addIssueEdges_mem hie d hd ht)
      · exact ih h i hirest d hd ht

theorem addEdgesForIssues_forall {ids : List String}
    {P : String × String → Prop} :
    ∀ {issues : List Issue} {es es' : List (String × String)},
      addEdgesForIssues ids issues es = some es' →
      (∀ e ∈ es, P e) → (∀ i ∈ issues, ∀ t ∈ ids, P (i.id, t)) →
      ∀ e ∈ es', P e := by
  intro issues
  induction issues with
  | nil => intro es es' h hes _; cases h; exact hes
  | cons i₀ rest ih =>
    intro es es' h hes hnew
    unfold addEdgesForIssues at h
    cases hie : addIssueEdges ids i₀.id i₀.dependencies es with
    | none => rw [hie] at h; cases h
    | some es₁ =>
      rw [hie] at h
      refine ih h ?_ ?_
      · exact addIssueEdges_forall hie hes
          (fun t ht => hnew i₀ (List.mem_cons_self _ _) t ht)
      · exact fun i hi t ht => hnew i (List.mem_cons_of_mem _ hi) t ht

/-- Every retained edge runs between two issue ids of the input: the
source is the id of the issue owning the dependency and the target passed
the `exists` test against `idToNode`. -/
theorem NewAnalyzer_edge_endpoints {issues : List Issue} {g : Graph}
    (hb : NewAnalyzer issues = some g) :
    ∀ e ∈ g.edges, e.1 ∈ g.nodes ∧ e.2 ∈ g.nodes := by
  unfold NewAnalyzer at hb
  cases hae : addEdgesForIssues (nodeIDs issues) issues [] with
  | none => rw [hae] at hb; cases hb
  | some es =>
    rw [hae] at hb
    cases hb
    exact addEdgesForIssues_forall hae (fun e he => absurd he (List.not_mem_nil e))
      (fun i hi t ht => ⟨List.mem_map_of_mem Issue.id hi, ht⟩)

theorem NewAnalyzer_nodes {issues : List Issue} {g : Graph}
    (hb : NewAnalyzer issues = some g) : g.nodes = nodeIDs issues := by
  unfold NewAnalyzer at hb
  cases hae : addEdgesForIssues (nodeIDs issues) issues [] with
  | none => rw [hae] at hb; cases hb
  | some es => rw [hae] at hb; cases hb; rfl

theorem addIssueEdges_cons (ids : List String) (u : String) (d : Dependency)
    (l : List Dependency) (es : List (String × String)) :
    addIssueEdges ids u (d :: l) es =
      if d.dependsOnID ∈ ids then
        match setEdge es u d.dependsOnID with
        | none => none
        | some es' => addIssueEdges ids u l es'
      else addIssueEdges ids u l es := rfl

theorem addEdgesForIssues_cons (ids : List String) (i : Issue)
    (rest : List Issue) (es : List (String × String)) :
    addEdgesForIssues ids (i :: rest) es =
      match addIssueEdges ids i.id i.dependencies es with
      | none => none
      | some es' => addEdgesForIssues ids rest es' := rfl

theorem addIssueEdges_append (ids : List String) (u : String)
    (l₁ l₂ : List Dependency) :
    ∀ es, addIssueEdges ids u (l₁ ++ l₂) es =
      (addIssueEdges ids u l₁ es).bind (fun es' => addIssueEdges ids u l₂ es') := by
  induction l₁ with
  | nil => intro es; rfl
  | cons d rest ih =>
    intro es
    rw [List.cons_append, addIssueEdges_cons, addIssueEdges_cons]
    split_ifs with hd
    · cases setEdge es u d.dependsOnID with
      | none => rfl
      | some es₁ => exact ih es₁
    · exact ih es

theorem addIssueEdges_skip (ids : List String) (u : String)
    (d : Dependency) (l : List Dependency) (es : List (String × String))
    (ht : d.dependsOnID ∉ ids) :
    addIssueEdges ids u (d :: l) es = addIssueEdges ids u l es := by
  rw [addIssueEdges_cons, if_neg ht]

theorem addEdgesForIssues_append (ids : List String)
    (l₁ l₂ : List Issue) :
    ∀ es, addEdgesForIssues ids (l₁ ++ l₂) es =
      (addEdgesForIssues ids l₁ es).bind
        (fun es' => addEdgesForIssues ids l₂ es') := by
  induction l₁ with
  | nil => intro es; rfl
  | cons i rest ih =>
    intro es
    rw [List.cons_append, addEdgesForIssues_cons, addEdgesForIssues_cons]
    cases addIssueEdges ids i.id i.dependencies es with
    | none => rfl
    | some es₁ => exact ih es₁

/-! ### Concrete evaluations: counterexamples and code evaluations -/

/-- C1 (counterexample): on the two-issue chain where A depends on B, the
retained edge is A → B, but `stats.TopologicalOrder` is `["B", "A"]` — the
source reverses gonum's sort — so A appears at index 1 and B at index 0,
refuting `indexOf u < indexOf v` for the edge u → v. -/
theorem topologicalOrder_claim_false_on_chain :
    NewAnalyzer [⟨"A", [⟨"A", "B", depBlocks⟩]⟩, ⟨"B", []⟩] =
      some ⟨["A", "B"], [("A", "B")]⟩ ∧
    topologicalOrder ⟨["A", "B"], [("A", "B")]⟩ = ["B", "A"] ∧
    ¬ (topologicalOrder ⟨["A", "B"], [("A", "B")]⟩).indexOf "A" <
        (topologicalOrder ⟨["A", "B"], [("A", "B")]⟩).indexOf "B" := by
  refine ⟨rfl, rfl, ?_⟩
  decide

/-- C2 (counterexample): a dependency of type `related` between two
existing issues produces an edge in the analysis graph — the edge loop of
`NewAnalyzer` never inspects `dep.Type`. -/
theorem related_dependency_creates_edge :
    NewAnalyzer [⟨"A", [⟨"A", "B", depRelated⟩]⟩, ⟨"B", []⟩] =
      some ⟨["A", "B"], [("A", "B")]⟩ ∧
    ("A", "B") ∈ (Graph.edges ⟨["A", "B"], [("A", "B")]⟩) := by
  refine ⟨rfl, ?_⟩
  decide

/-- C3 (code evaluation): an issue that depends on itself does not get the
self-dependency dropped — its own id is in `idToNode`, so `NewAnalyzer`
reaches gonum's `SetEdge` with equal endpoints, which panics
(`"simple: adding self edge"`); graph construction aborts instead of
completing, modelled by `none`. -/
theorem NewAnalyzer_self_dep_aborts :
    NewAnalyzer [⟨"A", [⟨"A", "A", depBlocks⟩]⟩] = none := rfl

/-- C4 (code evaluation): `getTopItems` produces different entry orders
for the same metric map presented in two different Go map iteration
orders (both lists below are permutations of one another, i.e. the same
map).  Go randomises map iteration order per run and `sort.Slice` applies
no tie-break, so two runs of the full analysis on the same input can emit
the two different outputs below — the JSON encodings differ. -/
theorem getTopItems_depends_on_iteration_order :
    List.Perm [("a", (0 : Rat)), ("b", 0)] [("b", 0), ("a", 0)] ∧
    getTopItems [("a", 0), ("b", 0)] 50 ≠ getTopItems [("b", 0), ("a", 0)] 50 := by
  refine ⟨?_, ?_⟩ <;> decide

/-- Strict lexicographic order on issue ids, stated over the underlying
character lists (definitionally the order `String.instLT` denotes). -/
def idLexLt (x y : String) : Prop :=
  x.data < y.data

/-- The ordering the spec claims for every top-N list: strictly greater
value first, equal values tie-broken by lexicographically ascending id. -/
def SortedByValueThenId (l : List InsightItem) : Prop :=
  List.Pairwise (fun x y => y.value < x.value ∨
    (x.value = y.value ∧ idLexLt x.id y.id)) l

/-- C5 (counterexample): when the map iteration order presents "b" before
"a" and both carry the same value, the emitted list is `[b, a]` — not
lexicographically ascending between equal values, so the claimed
tie-break does not exist. -/
theorem getTopItems_no_lexicographic_tiebreak :
    getTopItems [("b", (1 : Rat)), ("a", 1)] 50 = [⟨"b", 1⟩, ⟨"a", 1⟩] ∧
    ¬ SortedByValueThenId (getTopItems [("b", (1 : Rat)), ("a", 1)] 50) := by
  refine ⟨rfl, ?_⟩
  simp only [SortedByValueThenId, idLexLt]
  decide

/-- C6 (counterexample): the single issue "A" has in-degree 0 and
out-degree 0 in the built graph, yet the insights record's orphans list
is empty — `GenerateInsights` never assigns the `Orphans` field. -/
theorem GenerateInsights_orphans_empty_for_isolated_node :
    NewAnalyzer [⟨"A", []⟩] = some ⟨["A"], []⟩ ∧
    inDegree ⟨["A"], []⟩ "A" = 0 ∧
    outDegree ⟨["A"], []⟩ "A" = 0 ∧
    (GenerateInsights
        ⟨[("A", 0)], [("A", 1)], [("A", 0)], [("A", 0)], [("A", 0)], [], 0⟩
        50).orphans = [] := by
  exact ⟨rfl, rfl, rfl, rfl⟩

/-- C8 (counterexample): issue A carries both a `blocks` and a
`parent-child` dependency on B, yet the built graph stores exactly ONE
edge A → B — gonum's `simple.DirectedGraph` keeps at most one untyped
edge per ordered pair, so the two typed dependencies merge. -/
theorem blocks_and_parent_child_merge_to_one_edge :
    NewAnalyzer
        [⟨"A", [⟨"A", "B", depBlocks⟩, ⟨"A", "B", depParentChild⟩]⟩, ⟨"B", []⟩] =
      some ⟨["A", "B"], [("A", "B")]⟩ ∧
    (Graph.edges ⟨["A", "B"], [("A", "B")]⟩).length = 1 := by
  exact ⟨rfl, rfl⟩

/-- C9 (counterexample): the dependency of "A" on the unknown id "X" is
dropped (the built graph has no edges) and construction completes, but no
warning is produced — `NewAnalyzer` contains no warning or logging call,
so its warning output is empty, refuting "drops that edge with a
warning". -/
theorem dangling_dep_dropped_without_warning :
    NewAnalyzer [⟨"A", [⟨"A", "X", depBlocks⟩]⟩] = some ⟨["A"], []⟩ ∧
    newAnalyzerWarnings [⟨"A", [⟨"A", "X", depBlocks⟩]⟩] = [] := by
  exact ⟨rfl, rfl⟩

/-- C10 (counterexample): when the parent id also appears in `dependsOn`,
`toModelIssue` emits only the `blocks` dependency — the `parent-child`
dependency is skipped by the `!seen[p.Parent]` test, refuting "the parent
field becomes a parent-child dependency". -/
theorem toModelIssueDeps_parent_skipped_when_seen :
    toModelIssueDeps ⟨"A", "B", ["B"], [], [], []⟩ = [⟨"A", "B", depBlocks⟩] ∧
    ⟨"A", "B", depParentChild⟩ ∉ toModelIssueDeps ⟨"A", "B", ["B"], [], [], []⟩ := by
  refine ⟨rfl, ?_⟩
  decide

/-! ### Claim theorems about graph construction -/

/-- C2 (amended): graph construction creates an edge for EVERY dependency
whose `depends_on_id` matches an issue id of the input, regardless of the
dependency's type — the edge loop contains no type test, so `related`
(and any other type) produces an edge exactly like `blocks` and
`parent-child` do. -/
theorem NewAnalyzer_edge_of_any_dep_type (issues : List Issue) (g : Graph)
    (hb : NewAnalyzer issues = some g) (i : Issue) (hi : i ∈ issues)
    (d : Dependency) (hd : d ∈ i.dependencies)
    (ht : d.dependsOnID ∈ nodeIDs issues) :
    (i.id, d.dependsOnID) ∈ g.edges := by
  unfold NewAnalyzer at hb
  cases hae : addEdgesForIssues (nodeIDs issues) issues [] with
  | none => rw [hae] at hb; cases hb
  | some es =>
    rw [hae] at hb
    cases hb
    exact addEdgesForIssues_mem hae i hi d hd ht

/-- C2 (witness): the amended theorem applied to the concrete input whose
only dependency has type `related`. -/
theorem NewAnalyzer_edge_of_any_dep_type_witness :
    ("A", "B") ∈ (Graph.edges ⟨["A", "B"], [("A", "B")]⟩) :=
  NewAnalyzer_edge_of_any_dep_type
    [⟨"A", [⟨"A", "B", depRelated⟩]⟩, ⟨"B", []⟩]
    ⟨["A", "B"], [("A", "B")]⟩ rfl
    ⟨"A", [⟨"A", "B", depRelated⟩]⟩ (by decide)
    ⟨"A", "B", depRelated⟩ (by decide) (by decide)

/-- C8 (amended): the built graph stores at most one edge per ordered
pair of ids: the edge list is duplicate-free, so duplicate
`(issue_id, depends_on_id, type)` triples merge — and so do a `blocks`
and a `parent-child` dependency between the same ordered pair, which
collapse into one untyped edge rather than being kept as two distinct
typed edges. -/
theorem NewAnalyzer_edges_nodup (issues : List Issue) (g : Graph)
    (hb : NewAnalyzer issues = some g) : g.edges.Nodup := by
  unfold NewAnalyzer at hb
  cases hae : addEdgesForIssues (nodeIDs issues) issues [] with
  | none => rw [hae] at hb; cases hb
  | some es =>
    rw [hae] at hb
    cases hb
    exact addEdgesForIssues_nodup hae List.nodup_nil

/-- C8 (witness): the amended theorem applied to the input that carries
both a `blocks` and a `parent-child` dependency from A to B. -/
theorem NewAnalyzer_edges_nodup_witness :
    (Graph.edges ⟨["A", "B"], [("A", "B")]⟩).Nodup :=
  NewAnalyzer_edges_nodup
    [⟨"A", [⟨"A", "B", depBlocks⟩, ⟨"A", "B", depParentChild⟩]⟩, ⟨"B", []⟩]
    ⟨["A", "B"], [("A", "B")]⟩ rfl

theorem addIssueEdges_drop_dangling (ids : List String) (u : String)
    (dpre : List Dependency) (d : Dependency) (dpost : List Dependency)
    (ht : d.dependsOnID ∉ ids) :
    ∀ es, addIssueEdges ids u (dpre ++ d :: dpost) es =
      addIssueEdges ids u (dpre ++ dpost) es := by
  intro es
  rw [addIssueEdges_append, addIssueEdges_append]
  cases addIssueEdges ids u dpre es with
  | none => rfl
  | some es₁ => exact addIssueEdges_skip ids u d dpost es₁ ht

/-- C9 (amended): a dependency whose `depends_on_id` matches no issue id
is dropped SILENTLY — `NewAnalyzer` emits no warning — and the analysis
continues: the graph built from the input equals the graph built from the
same input with the dangling dependency removed. -/
theorem NewAnalyzer_dangling_dep_no_effect (pre post : List Issue)
    (iid : String) (dpre dpost : List Dependency) (d : Dependency)
    (hdangle : d.dependsOnID ∉ nodeIDs (pre ++ ⟨iid, dpre ++ d :: dpost⟩ :: post)) :
    NewAnalyzer (pre ++ ⟨iid, dpre ++ d :: dpost⟩ :: post) =
      NewAnalyzer (pre ++ ⟨iid, dpre ++ dpost⟩ :: post) := by
  have hids : nodeIDs (pre ++ ⟨iid, dpre ++ dpost⟩ :: post) =
      nodeIDs (pre ++ ⟨iid, dpre ++ d :: dpost⟩ :: post) := by
    simp [nodeIDs]
  unfold NewAnalyzer
  rw [hids]
  have key : addEdgesForIssues (nodeIDs (pre ++ ⟨iid, dpre ++ d :: dpost⟩ :: post))
      (pre ++ ⟨iid, dpre ++ d :: dpost⟩ :: post) [] =
      addEdgesForIssues (nodeIDs (pre ++ ⟨iid, dpre ++ d :: dpost⟩ :: post))
      (pre ++ ⟨iid, dpre ++ dpost⟩ :: post) [] := by
    rw [addEdgesForIssues_append, addEdgesForIssues_append]
    cases addEdgesForIssues (nodeIDs (pre ++ ⟨iid, dpre ++ d :: dpost⟩ :: post)) pre [] with
    | none => rfl
    | some es₁ =>
      show addEdgesForIssues _ (⟨iid, dpre ++ d :: dpost⟩ :: post) es₁ =
        addEdgesForIssues _ (⟨iid, dpre ++ dpost⟩ :: post) es₁
      rw [addEdgesForIssues_cons, addEdgesForIssues_cons]
      rw [show (Issue.dependencies ⟨iid, dpre ++ d :: dpost⟩) = dpre ++ d :: dpost from rfl,
        show (Issue.id ⟨iid, dpre ++ d :: dpost⟩) = iid from rfl,
        addIssueEdges_drop_dangling _ _ _ _ _ hdangle]
  rw [key]

/-- C9 (witness): the amended theorem applied to the single issue "A"
whose one dependency targets the unknown id "X". -/
theorem NewAnalyzer_dangling_dep_no_effect_witness :
    NewAnalyzer [⟨"A", [⟨"A", "X", depBlocks⟩]⟩] = NewAnalyzer [⟨"A", []⟩] :=
  NewAnalyzer_dangling_dep_no_effect [] [] "A" [] [] ⟨"A", "X", depBlocks⟩ (by decide)

/-! ### Claim theorems about the insight lists -/

/-- C5 (amended): every top-N list has at most N entries and its values
are sorted in non-increasing order; the relative order of entries with
equal values follows the (unspecified) map iteration order — the code
applies no lexicographic id tie-break. -/
theorem getTopItems_length_le_and_value_sorted (entries : List (String × Rat))
    (limit : Nat) :
    (getTopItems entries limit).length ≤ limit ∧
    List.Pairwise (fun x y : InsightItem => y.value ≤ x.value)
      (getTopItems entries limit) := by
  constructor
  · simp only [getTopItems, List.length_map, List.length_take]
    exact min_le_left _ _
  · have hs : List.Pairwise valueGE (entries.insertionSort valueGE) :=
      List.sorted_insertionSort valueGE entries
    have ht : List.Pairwise valueGE ((entries.insertionSort valueGE).take limit) :=
      hs.sublist (List.take_sublist limit _)
    show List.Pairwise _
      (((entries.insertionSort valueGE).take limit).map
        (fun e => (⟨e.1, e.2⟩ : InsightItem)))
    rw [List.pairwise_map]
    exact ht

/-- C6 (amended): `GenerateInsights` never assigns the `Orphans` field of
the insights record, so the orphans list is empty for every input — in
particular it does NOT list the nodes of in- and out-degree zero. -/
theorem GenerateInsights_orphans_always_empty (s : GraphStats) (limit : Nat) :
    (GenerateInsights s limit).orphans = [] := rfl

/-! ### Topological sort: soundness -/

theorem kahnAux_perm {edges : List (String × String)} :
    ∀ {fuel : Nat} {nodes ord : List String},
      kahnAux edges fuel nodes = some ord → ord.Perm nodes := by
  intro fuel
  induction fuel with
  | zero =>
    intro nodes ord h
    cases nodes with
    | nil => cases h; exact List.Perm.refl _
    | cons n ns => cases h
  | succ fuel ih =>
    intro nodes ord h
    cases nodes with
    | nil => cases h; exact List.Perm.refl _
    | cons n ns =>
      simp only [kahnAux] at h
      cases hf : (n :: ns).find? (fun v => !hasInEdge edges (n :: ns) v) with
      | none => rw [hf] at h; cases h
      | some v =>
        rw [hf] at h
        rcases Option.map_eq_some'.mp h with ⟨rest, hrec, rfl⟩
        have hv : v ∈ n :: ns := List.mem_of_find?_eq_some hf
        exact ((ih hrec).cons v).trans (List.perm_cons_erase hv).symm

theorem find?_pick_no_in_edge {edges : List (String × String)}
    {nodes : List String} {v : String}
    (hf : nodes.find? (fun v => !hasInEdge edges nodes v) = some v) :
    ∀ e ∈ edges, e.2 = v → e.1 ∉ nodes := by
  have hp := List.find?_some hf
  rw [Bool.not_eq_true'] at hp
  intro e he h2 h1
  have : hasInEdge edges nodes v = true := by
    simp only [hasInEdge, List.any_eq_true]
    exact ⟨e, he, by simp [h2, h1]⟩
  rw [hp] at this
  cases this

theorem kahnAux_topo {edges : List (String × String)} :
    ∀ {fuel : Nat} {nodes ord : List String},
      kahnAux edges fuel nodes = some ord →
      ∀ a b, (a, b) ∈ edges → a ∈ nodes → b ∈ nodes →
        ord.indexOf a < ord.indexOf b := by
  intro fuel
  induction fuel with
  | zero =>
    intro nodes ord h a b _ ha _
    cases nodes with
    | nil => cases ha
    | cons n ns => cases h
  | succ fuel ih =>
    intro nodes ord h a b he ha hb
    cases nodes with
    | nil => cases ha
    | cons n ns =>
      simp only [kahnAux] at h
      cases hf : (n :: ns).find? (fun v => !hasInEdge edges (n :: ns) v) with
      | none => rw [hf] at h; cases h
      | some v =>
        rw [hf] at h
        rcases Option.map_eq_some'.mp h with ⟨rest, hrec, rfl⟩
        have hbv : b ≠ v := by
          rintro rfl
          exact find?_pick_no_in_edge hf (a, b) he rfl ha
        have hbidx : (v :: rest).indexOf b = (rest.indexOf b) + 1 :=
          List.indexOf_cons_ne rest (fun hvb => hbv hvb.symm)
        by_cases hav : a = v
        · subst hav
          rw [List.indexOf_cons_self, hbidx]
          exact Nat.succ_pos _
        · have haidx : (v :: rest).indexOf a = (rest.indexOf a) + 1 :=
            List.indexOf_cons_ne rest (fun hva => hav hva.symm)
          rw [haidx, hbidx]
          have ha' : a ∈ (n :: ns).erase v :=
            (List.mem_erase_of_ne hav).mpr ha
          have hb' : b ∈ (n :: ns).erase v :=
            (List.mem_erase_of_ne hbv).mpr hb
          exact Nat.succ_lt_succ (ih hrec a b he ha' hb')

theorem kahn_perm {edges : List (String × String)} {nodes ord : List String}
    (h : kahn edges nodes = some ord) : ord.Perm nodes :=
  kahnAux_perm h

theorem kahn_topo {edges : List (String × String)} {nodes ord : List String}
    (h : kahn edges nodes = some ord) :
    ∀ a b, (a, b) ∈ edges → a ∈ nodes → b ∈ nodes →
      ord.indexOf a < ord.indexOf b :=
  kahnAux_topo h

theorem indexOf_reverse_eq {l : List String} (hnd : l.Nodup) {a : String}
    (ha : a ∈ l) :
    l.reverse.indexOf a = l.length - 1 - l.indexOf a := by
  have hi : l.indexOf a < l.length := List.indexOf_lt_length.mpr ha
  have hj : l.length - 1 - l.indexOf a < l.reverse.length := by
    rw [List.length_reverse]; omega
  have harith : l.length - 1 - (l.length - 1 - l.indexOf a) = l.indexOf a := by
    omega
  have hgr : l.reverse[l.length - 1 - l.indexOf a] = a := by
    rw [List.getElem_reverse, getElem_congr harith]
    exact List.getElem_indexOf hi
  have := List.indexOf_getElem (List.nodup_reverse.mpr hnd)
    (l.length - 1 - l.indexOf a) hj
  rw [hgr] at this
  exact this

theorem indexOf_reverse_lt {l : List String} (hnd : l.Nodup) {a b : String}
    (ha : a ∈ l) (hb : b ∈ l) (hab : l.indexOf a < l.indexOf b) :
    l.reverse.indexOf b < l.reverse.indexOf a := by
  have hia : l.indexOf a < l.length := List.indexOf_lt_length.mpr ha
  have hib : l.indexOf b < l.length := List.indexOf_lt_length.mpr hb
  rw [indexOf_reverse_eq hnd ha, indexOf_reverse_eq hnd hb]
  omega

/-- C1 (amended): whenever the published topological order is non-empty,
it is REVERSED relative to the claim: for every retained edge u → v
(u depends on v), v appears at a strictly smaller index than u in
`stats.TopologicalOrder` — the source explicitly reverses gonum's sort so
that prerequisites come first. -/
theorem topologicalOrder_reverse_edge_order (issues : List Issue) (g : Graph)
    (hb : NewAnalyzer issues = some g) (hnd : g.nodes.Nodup)
    (hne : topologicalOrder g ≠ []) :
    ∀ u v, (u, v) ∈ g.edges →
      (topologicalOrder g).indexOf v < (topologicalOrder g).indexOf u := by
  intro u v he
  cases hk : kahn g.edges g.nodes with
  | none =>
    exact absurd (by simp [topologicalOrder, hk]) hne
  | some sorted =>
    have hperm := kahn_perm hk
    have hsnd : sorted.Nodup := (hperm.nodup_iff).mpr hnd
    have hep := NewAnalyzer_edge_endpoints hb (u, v) he
    have hu : u ∈ sorted := (hperm.mem_iff).mpr hep.1
    have hv : v ∈ sorted := (hperm.mem_iff).mpr hep.2
    have hlt := kahn_topo hk u v he hep.1 hep.2
    have hto : topologicalOrder g = sorted.reverse := by
      simp [topologicalOrder, hk]
    rw [hto]
    exact indexOf_reverse_lt hsnd hu hv hlt

/-- C1 (witness): the amended theorem applied to the chain where A
depends on B; in the published order `["B", "A"]` the prerequisite B (at
index 0) precedes the dependent A (at index 1). -/
theorem topologicalOrder_reverse_edge_order_witness :
    (topologicalOrder ⟨["A", "B"], [("A", "B")]⟩).indexOf "B" <
      (topologicalOrder ⟨["A", "B"], [("A", "B")]⟩).indexOf "A" :=
  topologicalOrder_reverse_edge_order
    [⟨"A", [⟨"A", "B", depBlocks⟩]⟩, ⟨"B", []⟩]
    ⟨["A", "B"], [("A", "B")]⟩ rfl (by decide) (by decide)
    "A" "B" (by decide)

/-! ### Wire-format dependency flattening -/

/-- Invariant of the `dependsOn` / `blockedBy` accumulation: the seen set
is exactly the list of dependency targets, every accumulated dependency
is an outgoing `blocks` dependency of this issue, the seen set is
duplicate-free and contains no empty id. -/
def DepAccInv (pid : String) (acc : List Dependency × List String) : Prop :=
  acc.2 = acc.1.map Dependency.dependsOnID ∧
  (∀ dp ∈ acc.1, dp.issueID = pid ∧ dp.depType = depBlocks) ∧
  acc.2.Nodup ∧ "" ∉ acc.2

theorem depStep_inv {pid : String} {acc : List Dependency × List String}
    (h : DepAccInv pid acc) (dep : String) :
    DepAccInv pid (depStep pid acc dep) := by
  obtain ⟨hmap, hall, hnd, hne⟩ := h
  unfold depStep
  split_ifs with hc
  · exact ⟨hmap, hall, hnd, hne⟩
  · push_neg at hc
    refine ⟨by simp [hmap], ?_, ?_, ?_⟩
    · intro dp hdp
      rcases List.mem_append.mp hdp with hdp | hdp
      · exact hall dp hdp
      · rw [List.mem_singleton.mp hdp]
        exact ⟨rfl, rfl⟩
    · simpa [List.nodup_append] using ⟨hnd, hc.2⟩
    · simp only [List.mem_append, List.mem_singleton]
      rintro (h1 | h1)
      · exact hne h1
      · exact hc.1 h1.symm

theorem foldl_depStep_inv {pid : String} :
    ∀ (l : List String) {acc : List Dependency × List String},
      DepAccInv pid acc → DepAccInv pid (l.foldl (depStep pid) acc) := by
  intro l
  induction l with
  | nil => intro acc h; exact h
  | cons dep rest ih => intro acc h; exact ih (depStep_inv h dep)

theorem foldl_depStep_seen {pid : String} :
    ∀ (l : List String) (acc : List Dependency × List String) (t : String),
      t ∈ (l.foldl (depStep pid) acc).2 ↔ t ∈ acc.2 ∨ (t ≠ "" ∧ t ∈ l) := by
  intro l
  induction l with
  | nil => intro acc t; simp
  | cons dep rest ih =>
    intro acc t
    show t ∈ (rest.foldl (depStep pid) (depStep pid acc dep)).2 ↔ _
    rw [ih]
    unfold depStep
    split_ifs with hc
    · constructor
      · rintro (h1 | h1)
        · exact Or.inl h1
        · exact Or.inr ⟨h1.1, List.mem_cons_of_mem _ h1.2⟩
      · rintro (h1 | ⟨ht, hmem⟩)
        · exact Or.inl h1
        · rcases List.mem_cons.mp hmem with rfl | hmem
          · rcases hc with hc | hc
            · exact absurd hc ht
            · exact Or.inl hc
          · exact Or.inr ⟨ht, hmem⟩
    · push_neg at hc
      simp only [List.mem_append, List.mem_singleton]
      constructor
      · rintro ((h1 | rfl) | h1)
        · exact Or.inl h1
        · exact Or.inr ⟨hc.1, List.mem_cons_self _ _⟩
        · exact Or.inr ⟨h1.1, List.mem_cons_of_mem _ h1.2⟩
      · rintro (h1 | ⟨ht, hmem⟩)
        · exact Or.inl (Or.inl h1)
        · rcases List.mem_cons.mp hmem with rfl | hmem
          · exact Or.inl (Or.inr rfl)
          · exact Or.inr ⟨ht, hmem⟩

theorem depAcc_blocks_mem {pid : String} {acc : List Dependency × List String}
    (h : DepAccInv pid acc) (t : String) :
    (⟨pid, t, depBlocks⟩ : Dependency) ∈ acc.1 ↔ t ∈ acc.2 := by
  obtain ⟨hmap, hall, _, _⟩ := h
  rw [hmap]
  constructor
  · intro hm
    exact List.mem_map_of_mem Dependency.dependsOnID hm
  · intro hm
    rcases List.mem_map.mp hm with ⟨dp, hdp, hdt⟩
    obtain ⟨h1, h2⟩ := hall dp hdp
    have : dp = ⟨pid, t, depBlocks⟩ := by
      cases dp
      simp only [Dependency.mk.injEq]
      exact ⟨h1, hdt, h2⟩
    exact this ▸ hdp

/-- C10 (amended): flattening a wire-format record produces: exactly one
outgoing `blocks` dependency for every non-empty id of `depends_on` or
`blocked_by` (deduplicated across both arrays); a `parent-child`
dependency for the parent ONLY when the parent id is non-empty and did
not already appear in `depends_on` or `blocked_by`; nothing from `blocks`
and `children`; and every produced dependency leaves this issue. -/
theorem toModelIssueDeps_characterization (p : ProtoIssue) :
    (∀ d ∈ toModelIssueDeps p, d.issueID = p.id ∧
        (d.depType = depBlocks ∨ d.depType = depParentChild)) ∧
    ((toModelIssueDeps p).map Dependency.dependsOnID).Nodup ∧
    (∀ t, (⟨p.id, t, depBlocks⟩ : Dependency) ∈ toModelIssueDeps p ↔
        t ≠ "" ∧ (t ∈ p.dependsOn ∨ t ∈ p.blockedBy)) ∧
    ((⟨p.id, p.parent, depParentChild⟩ : Dependency) ∈ toModelIssueDeps p ↔
        p.parent ≠ "" ∧ p.parent ∉ p.dependsOn ∧ p.parent ∉ p.blockedBy) ∧
    (∀ bl ch, toModelIssueDeps ⟨p.id, p.parent, p.dependsOn, bl, p.blockedBy, ch⟩ =
        toModelIssueDeps p) := by
  have hinv0 : DepAccInv p.id ([], []) := by
    refine ⟨rfl, ?_, List.nodup_nil, ?_⟩
    · intro dp hdp; cases hdp
    · intro h; cases h
  have hinv1 := foldl_depStep_inv p.dependsOn hinv0
  have hinv2 := foldl_depStep_inv p.blockedBy hinv1
  set acc2 := p.blockedBy.foldl (depStep p.id) (p.dependsOn.foldl (depStep p.id) ([], []))
    with hacc2
  have hseen : ∀ t, t ∈ acc2.2 ↔ t ≠ "" ∧ (t ∈ p.dependsOn ∨ t ∈ p.blockedBy) := by
    intro t
    rw [hacc2, foldl_depStep_seen, foldl_depStep_seen]
    simp only [List.not_mem_nil, false_or]
    constructor
    · rintro (⟨ht, hm⟩ | ⟨ht, hm⟩)
      · exact ⟨ht, Or.inl hm⟩
      · exact ⟨ht, Or.inr hm⟩
    · rintro ⟨ht, hm | hm⟩
      · exact Or.inl ⟨ht, hm⟩
      · exact Or.inr ⟨ht, hm⟩
  have hout : toModelIssueDeps p =
      (if p.parent ≠ "" ∧ p.parent ∉ acc2.2 then
        acc2.1 ++ [⟨p.id, p.parent, depParentChild⟩]
      else acc2.1) := rfl
  have htype : depBlocks ≠ depParentChild := by decide
  have hmap2 := hinv2.1
  have hall2 := hinv2.2.1
  have hnd2 := hinv2.2.2.1
  refine ⟨?_, ?_, ?_, ?_, ?_⟩
  · intro d hd
    rw [hout] at hd
    split_ifs at hd with hcond
    · rcases List.mem_append.mp hd with hd | hd
      · obtain ⟨h1, h2⟩ := hall2 d hd
        exact ⟨h1, Or.inl h2⟩
      · rw [List.mem_singleton.mp hd]
        exact ⟨rfl, Or.inr rfl⟩
    · obtain ⟨h1, h2⟩ := hall2 d hd
      exact ⟨h1, Or.inl h2⟩
  · rw [hout]
    split_ifs with hcond
    · rw [List.map_append]
      rw [show (List.map Dependency.dependsOnID [⟨p.id, p.parent, depParentChild⟩]) =
        [p.parent] from rfl]
      rw [List.nodup_append]
      refine ⟨hmap2 ▸ hnd2, List.nodup_singleton _, ?_⟩
      intro t htm htm'
      rw [List.mem_singleton.mp htm'] at htm
      exact hcond.2 (hmap2 ▸ htm)
    · exact hmap2 ▸ hnd2
  · intro t
    rw [hout]
    split_ifs with hcond
    · rw [List.mem_append, List.mem_singleton]
      constructor
      · rintro (hm | hm)
        · exact (hseen t).mp ((depAcc_blocks_mem hinv2 t).mp hm)
        · exact absurd (congrArg Dependency.depType hm) htype
      · intro hrhs
        exact Or.inl ((depAcc_blocks_mem hinv2 t).mpr ((hseen t).mpr hrhs))
    · rw [depAcc_blocks_mem hinv2 t, hseen t]
  · rw [hout]
    split_ifs with hcond
    · rw [List.mem_append, List.mem_singleton]
      constructor
      · intro _
        refine ⟨hcond.1, ?_, ?_⟩
        · intro hm
          exact hcond.2 ((hseen p.parent).mpr ⟨hcond.1, Or.inl hm⟩)
        · intro hm
          exact hcond.2 ((hseen p.parent).mpr ⟨hcond.1, Or.inr hm⟩)
      · intro _
        exact Or.inr rfl
    · constructor
      · intro hm
        obtain ⟨_, h2⟩ := hall2 _ hm
        exact absurd h2.symm htype
      · rintro ⟨hp1, hp2, hp3⟩
        exfalso
        refine hcond ⟨hp1, ?_⟩
        intro hm
        rcases ((hseen p.parent).mp hm).2 with hm' | hm'
        · exact hp2 hm'
        · exact hp3 hm'
  · intro bl ch
    rfl

/-! ### Cycles and completeness of the topological sort -/

/-- The edge relation of an edge list. -/
def edgeRel (es : List (String × String)) (a b : String) : Prop := (a, b) ∈ es

instance (es : List (String × String)) : DecidableRel (edgeRel es) :=
  fun a b => inferInstanceAs (Decidable ((a, b) ∈ es))

/-- A directed cycle over an edge list: a non-empty node list whose
consecutive elements are edges and whose last element has an edge back to
the first.  (Closed walks qualify; every simple cycle is one.) -/
def IsCycleList (es : List (String × String)) (c : List String) : Prop :=
  c ≠ [] ∧ List.Chain' (edgeRel es) c ∧
  (∃ x y, c.getLast? = some x ∧ c.head? = some y ∧ (x, y) ∈ es)

/-- The built graph has a cycle. -/
def HasCycle (g : Graph) : Prop :=
  ∃ c, (∀ x ∈ c, x ∈ g.nodes) ∧ IsCycleList g.edges c

theorem chain'_indexOf_le {es : List (String × String)} {nodes ord : List String}
    (hk : kahn es nodes = some ord) :
    ∀ c : List String, List.Chain' (edgeRel es) c → (∀ x ∈ c, x ∈ nodes) →
      ∀ x y, c.head? = some x → c.getLast? = some y →
        ord.indexOf x ≤ ord.indexOf y := by
  intro c
  induction c with
  | nil => intro _ _ x y hx; cases hx
  | cons a rest ih =>
    intro hchain hmem x y hx hy
    cases rest with
    | nil =>
      cases hx; cases hy
      exact le_refl _
    | cons b rest' =>
      cases hx
      obtain ⟨hab, hchain'⟩ := List.chain'_cons.mp hchain
      have hmem' : ∀ z ∈ b :: rest', z ∈ nodes :=
        fun z hz => hmem z (List.mem_cons_of_mem _ hz)
      have h1 : ord.indexOf a < ord.indexOf b :=
        kahn_topo hk a b hab (hmem a (List.mem_cons_self _ _))
          (hmem' b (List.mem_cons_self _ _))
      have h2 : ord.indexOf b ≤ ord.indexOf y := by
        refine ih hchain' hmem' b y rfl ?_
        rw [← List.getLast?_cons_cons]
        exact hy
      omega

theorem no_cycle_of_kahn_some {g : Graph} {ord : List String}
    (hk : kahn g.edges g.nodes = some ord) : ¬ HasCycle g := by
  rintro ⟨c, hmem, hne, hchain, x, y, hlast, hhead, hxy⟩
  have hx : x ∈ g.nodes := hmem x (List.mem_of_getLast?_eq_some hlast)
  have hy : y ∈ g.nodes := hmem y (List.mem_of_mem_head? (hhead ▸ rfl))
  have h1 : ord.indexOf y ≤ ord.indexOf x :=
    chain'_indexOf_le hk c hchain hmem y x hhead hlast
  have h2 : ord.indexOf x < ord.indexOf y := kahn_topo hk x y hxy hx hy
  omega

theorem nodup_length_le_of_mem {l S : List String} (hnd : l.Nodup)
    (hsub : ∀ x ∈ l, x ∈ S) : l.length ≤ S.length := by
  have h1 : l.toFinset.card = l.length := List.toFinset_card_of_nodup hnd
  have h2 : l.toFinset ⊆ S.toFinset := by
    intro x hx
    rw [List.mem_toFinset] at hx ⊢
    exact hsub x hx
  calc l.length = l.toFinset.card := h1.symm
    _ ≤ S.toFinset.card := Finset.card_le_card h2
    _ ≤ S.length := List.toFinset_card_le S

theorem grow_path {edges : List (String × String)} {S : List String}
    (htrap : ∀ v ∈ S, ∃ u ∈ S, (u, v) ∈ edges) :
    ∀ (k : Nat) (path : List String), path ≠ [] → path.Nodup →
      (∀ x ∈ path, x ∈ S) → List.Chain' (edgeRel edges) path →
      S.length + 1 - path.length ≤ k →
      ∃ c, (∀ x ∈ c, x ∈ S) ∧ IsCycleList edges c := by
  intro k
  induction k with
  | zero =>
    intro path hne hnd hsub _ hk
    exfalso
    have h1 : path.length ≤ S.length := nodup_length_le_of_mem hnd hsub
    have h2 : 0 < path.length := List.length_pos.mpr hne
    omega
  | succ k ih =>
    rintro path hne hnd hsub hchain hk
    obtain ⟨h, rest, rfl⟩ := List.exists_cons_of_ne_nil hne
    have hhS : h ∈ S := hsub h (List.mem_cons_self _ _)
    obtain ⟨u, huS, hedge⟩ := htrap h hhS
    by_cases hup : u ∈ h :: rest
    · obtain ⟨p1, p2, hsplit⟩ := List.append_of_mem hup
      cases p1 with
      | nil =>
        have hhu : h = u := by
          have := congrArg List.head? hsplit
          simpa using this
        refine ⟨[u], ?_, List.cons_ne_nil _ _, List.chain'_singleton _, ?_⟩
        · intro x hx
          rcases List.mem_cons.mp hx with rfl | hx
          · exact huS
          · cases hx
        · exact ⟨u, u, rfl, rfl, hhu ▸ hedge⟩
      | cons q p1' =>
        rw [List.cons_append] at hsplit
        injection hsplit with hhq hrest
        subst hhq
        subst hrest
        rw [← List.cons_append] at hchain
        obtain ⟨hc1, _, hjun⟩ := List.chain'_append.mp hchain
        refine ⟨u :: h :: p1', ?_, List.cons_ne_nil _ _, ?_, ?_⟩
        · intro x hx
          rcases List.mem_cons.mp hx with rfl | hx
          · exact huS
          · rcases List.mem_cons.mp hx with rfl | hx
            · exact hhS
            · exact hsub x (List.mem_cons_of_mem _ (List.mem_append_left _ hx))
        · exact List.chain'_cons.mpr ⟨hedge, hc1⟩
        · obtain ⟨x, hx⟩ : ∃ x, (h :: p1').getLast? = some x :=
            ⟨(h :: p1').getLast (List.cons_ne_nil _ _),
              List.getLast?_eq_getLast _ _⟩
          refine ⟨x, u, ?_, rfl, ?_⟩
          · rw [List.getLast?_cons_cons]
            exact hx
          · exact hjun x (Option.mem_def.mpr hx) u (Option.mem_def.mpr rfl)
    · refine ih (u :: h :: rest) (List.cons_ne_nil _ _) ?_ ?_ ?_ ?_
      · exact List.nodup_cons.mpr ⟨hup, hnd⟩
      · intro x hx
        rcases List.mem_cons.mp hx with rfl | hx
        · exact huS
        · exact hsub x hx
      · exact List.chain'_cons.mpr ⟨hedge, hchain⟩
      · have h1 : (h :: rest).length ≤ S.length :=
          nodup_length_le_of_mem hnd hsub
        simp only [List.length_cons] at hk ⊢
        omega

theorem cycle_of_trapped {edges : List (String × String)} {S : List String}
    (hSne : S ≠ []) (htrap : ∀ v ∈ S, ∃ u ∈ S, (u, v) ∈ edges) :
    ∃ c, (∀ x ∈ c, x ∈ S) ∧ IsCycleList edges c := by
  obtain ⟨x0, S', rfl⟩ := List.exists_cons_of_ne_nil hSne
  refine grow_path htrap ((x0 :: S').length + 1) [x0] (List.cons_ne_nil _ _)
    (List.nodup_singleton _) ?_ (List.chain'_singleton _) ?_
  · intro x hx
    rcases List.mem_cons.mp hx with rfl | hx
    · exact List.mem_cons_self _ _
    · cases hx
  · simp

theorem kahnAux_none_trapped {edges : List (String × String)} :
    ∀ {fuel : Nat} {nodes : List String}, nodes.length ≤ fuel →
      kahnAux edges fuel nodes = none →
      ∃ S : List String, S ≠ [] ∧ (∀ x ∈ S, x ∈ nodes) ∧
        ∀ v ∈ S, ∃ u ∈ S, (u, v) ∈ edges := by
  intro fuel
  induction fuel with
  | zero =>
    intro nodes hlen h
    cases nodes with
    | nil => cases h
    | cons n ns => simp at hlen
  | succ fuel ih =>
    intro nodes hlen h
    cases nodes with
    | nil => cases h
    | cons n ns =>
      simp only [kahnAux] at h
      cases hf : (n :: ns).find? (fun v => !hasInEdge edges (n :: ns) v) with
      | none =>
        refine ⟨n :: ns, List.cons_ne_nil n ns, fun x hx => hx, ?_⟩
        intro v hv
        have hfv := List.find?_eq_none.mp hf v hv
        simp only [Bool.not_eq_true', Bool.not_eq_false] at hfv
        simp only [hasInEdge, List.any_eq_true, Bool.and_eq_true, beq_iff_eq,
          List.elem_eq_mem, decide_eq_true_eq] at hfv
        obtain ⟨e, he, h2, h1⟩ := hfv
        obtain ⟨e1, e2⟩ := e
        cases h2
        exact ⟨e1, h1, he⟩
      | some v =>
        rw [hf] at h
        have hrec : kahnAux edges fuel ((n :: ns).erase v) = none := by
          cases hrec : kahnAux edges fuel ((n :: ns).erase v) with
          | none => rfl
          | some r =>
            exfalso
            have h' : Option.map (fun r => v :: r)
                (kahnAux edges fuel ((n :: ns).erase v)) = none := h
            rw [hrec] at h'
            cases h'
        have hv : v ∈ n :: ns := List.mem_of_find?_eq_some hf
        have hlen' : ((n :: ns).erase v).length ≤ fuel := by
          rw [List.length_erase_of_mem hv]
          simp only [List.length_cons] at hlen ⊢
          omega
        obtain ⟨S, hS1, hS2, hS3⟩ := ih hlen' hrec
        exact ⟨S, hS1, fun x hx => List.erase_subset _ _ (hS2 x hx), hS3⟩

theorem kahn_some_of_no_cycle {g : Graph} (hnc : ¬ HasCycle g) :
    ∃ ord, kahn g.edges g.nodes = some ord := by
  cases hk : kahn g.edges g.nodes with
  | some ord => exact ⟨ord, rfl⟩
  | none =>
    exfalso
    obtain ⟨S, hS1, hS2, hS3⟩ := kahnAux_none_trapped (le_refl _) hk
    have hSne : S ≠ [] := hS1
    obtain ⟨c, hc1, hc2⟩ := cycle_of_trapped hSne hS3
    exact hnc ⟨c, fun x hx => hS2 x (hc1 x hx), hc2⟩

/-! ### Correctness of the critical-path height computation -/

theorem lookupH_cons (k : String) (h : Nat) (rest : List (String × Nat))
    (x : String) :
    lookupH ((k, h) :: rest) x = if k = x then some h else lookupH rest x := rfl

theorem lookupH_append_left {acc t : List (String × Nat)} {x : String}
    (hx : x ∈ acc.map Prod.fst) :
    lookupH (acc ++ t) x = lookupH acc x := by
  induction acc with
  | nil => cases hx
  | cons kv rest ih =>
    obtain ⟨k, h⟩ := kv
    rw [List.cons_append, lookupH_cons, lookupH_cons]
    split_ifs with hk
    · rfl
    · refine ih ?_
      rcases List.mem_cons.mp hx with hx' | hx'
      · exact absurd hx'.symm hk
      · exact hx'

theorem lookupH_append_right {acc t : List (String × Nat)} {x : String}
    (hx : x ∉ acc.map Prod.fst) :
    lookupH (acc ++ t) x = lookupH t x := by
  induction acc with
  | nil => rfl
  | cons kv rest ih =>
    obtain ⟨k, h⟩ := kv
    rw [List.cons_append, lookupH_cons]
    split_ifs with hk
    · exact absurd (by simp [hk]) hx
    · exact ih (fun hm => hx (List.mem_cons_of_mem _ hm))

theorem lookupH_isSome_of_mem {acc : List (String × Nat)} {x : String}
    (hx : x ∈ acc.map Prod.fst) : ∃ h, lookupH acc x = some h := by
  induction acc with
  | nil => cases hx
  | cons kv rest ih =>
    obtain ⟨k, h⟩ := kv
    rw [lookupH_cons]
    split_ifs with hk
    · exact ⟨h, rfl⟩
    · refine ih ?_
      rcases List.mem_cons.mp hx with hx' | hx'
      · exact absurd hx'.symm hk
      · exact hx'

theorem heightStep_keys (edges : List (String × String))
    (acc : List (String × Nat)) (n : String) :
    (heightStep edges acc n).map Prod.fst = acc.map Prod.fst ++ [n] := by
  simp [heightStep]

theorem heightStep_expand (edges : List (String × String))
    (acc : List (String × Nat)) (n : String) :
    ∃ kv, heightStep edges acc n = acc ++ [kv] :=
  ⟨_, rfl⟩

theorem foldl_heightStep_keys (edges : List (String × String)) :
    ∀ (l : List String) (acc : List (String × Nat)),
      (l.foldl (heightStep edges) acc).map Prod.fst = acc.map Prod.fst ++ l := by
  intro l
  induction l with
  | nil => intro acc; simp
  | cons d rest ih =>
    intro acc
    show (rest.foldl (heightStep edges) (heightStep edges acc d)).map Prod.fst = _
    rw [ih, heightStep_keys, List.append_assoc, List.singleton_append]

theorem foldl_heightStep_expand (edges : List (String × String)) :
    ∀ (l : List String) (acc : List (String × Nat)),
      ∃ t, l.foldl (heightStep edges) acc = acc ++ t := by
  intro l
  induction l with
  | nil => intro acc; exact ⟨[], by simp⟩
  | cons d rest ih =>
    intro acc
    obtain ⟨t, ht⟩ := ih (heightStep edges acc d)
    obtain ⟨kv, hkv⟩ := heightStep_expand edges acc d
    refine ⟨[kv] ++ t, ?_⟩
    show rest.foldl (heightStep edges) (heightStep edges acc d) = _
    rw [ht, hkv, List.append_assoc]

theorem foldl_step_congr {α β : Type} {f g : β → α → β} {l : List α}
    (h : ∀ a ∈ l, ∀ b, f b a = g b a) : ∀ b, l.foldl f b = l.foldl g b := by
  induction l with
  | nil => intro b; rfl
  | cons a rest ih =>
    intro b
    show rest.foldl f (f b a) = rest.foldl g (g b a)
    rw [h a (List.mem_cons_self _ _) b]
    exact ih (fun a' ha' b' => h a' (List.mem_cons_of_mem _ ha') b') _

theorem computeHeights_spec {edges : List (String × String)} :
    ∀ (pending : List String) (acc : List (String × Nat)),
      (acc.map Prod.fst ++ pending).Nodup →
      (∀ l₁ v l₂, pending = l₁ ++ v :: l₂ →
        ∀ u, (u, v) ∈ edges → u ∈ acc.map Prod.fst ++ l₁) →
      ∀ v ∈ pending,
        lookupH (pending.foldl (heightStep edges) acc) v =
          some (1 + parentMax edges
            (fun u => (lookupH (pending.foldl (heightStep edges) acc) u).getD 0) v) := by
  intro pending
  induction pending with
  | nil => intro acc _ _ v hv; cases hv
  | cons v0 rest ih =>
    intro acc hnd hbefore v hv
    have hparents0 : ∀ u, (u, v0) ∈ edges → u ∈ acc.map Prod.fst := by
      intro u hu
      have := hbefore [] v0 rest rfl u hu
      simpa using this
    have hv0notin : v0 ∉ acc.map Prod.fst := by
      intro hm
      exact (List.nodup_append.mp hnd).2.2 hm (List.mem_cons_self _ _)
    set m := edges.foldl
      (fun best e =>
        if e.2 = v0 then
          match lookupH acc e.1 with
          | some h => max best h
          | none => best
        else best) 0 with hm_def
    have hstep : heightStep edges acc v0 = acc ++ [(v0, 1 + m)] := rfl
    have hH : (v0 :: rest).foldl (heightStep edges) acc =
        rest.foldl (heightStep edges) (acc ++ [(v0, 1 + m)]) := by
      show rest.foldl (heightStep edges) (heightStep edges acc v0) = _
      rw [hstep]
    obtain ⟨t, ht⟩ := foldl_heightStep_expand edges rest (acc ++ [(v0, 1 + m)])
    have hstable : ∀ u ∈ acc.map Prod.fst,
        lookupH ((v0 :: rest).foldl (heightStep edges) acc) u = lookupH acc u := by
      intro u hu
      rw [hH, ht, List.append_assoc]
      exact lookupH_append_left hu
    have hhead_case :
        lookupH ((v0 :: rest).foldl (heightStep edges) acc) v0 =
          some (1 + parentMax edges
            (fun u => (lookupH ((v0 :: rest).foldl (heightStep edges) acc) u).getD 0) v0) := by
      have hvlook : lookupH ((v0 :: rest).foldl (heightStep edges) acc) v0 =
          some (1 + m) := by
        rw [hH, ht, List.append_assoc, lookupH_append_right hv0notin]
        rw [show ([(v0, 1 + m)] ++ t) = (v0, 1 + m) :: t from rfl,
          lookupH_cons, if_pos rfl]
      have hmeq : m = parentMax edges
          (fun u => (lookupH ((v0 :: rest).foldl (heightStep edges) acc) u).getD 0) v0 := by
        rw [hm_def, parentMax]
        refine foldl_step_congr ?_ 0
        intro e he best
        by_cases h2 : e.2 = v0
        · rw [if_pos h2, if_pos h2]
          have heq : (e.1, v0) = e := by
            obtain ⟨a, b⟩ := e
            cases h2
            rfl
          have hu : e.1 ∈ acc.map Prod.fst :=
            hparents0 e.1 (heq ▸ he)
          obtain ⟨hval, hlk⟩ := lookupH_isSome_of_mem hu
          rw [hlk, hstable e.1 hu, hlk]
          rfl
        · rw [if_neg h2, if_neg h2]
      rw [hvlook]
      exact congrArg (fun z => some (1 + z)) hmeq
    rcases List.mem_cons.mp hv with rfl | hvrest
    · exact hhead_case
    · have hnd' : ((acc ++ [(v0, 1 + m)]).map Prod.fst ++ rest).Nodup := by
        simp only [List.map_append]
        rw [List.append_assoc]
        show (acc.map Prod.fst ++ ([(v0, 1 + m)].map Prod.fst ++ rest)).Nodup
        simpa using hnd
      have hbefore' : ∀ l₁ w l₂, rest = l₁ ++ w :: l₂ →
          ∀ u, (u, w) ∈ edges → u ∈ (acc ++ [(v0, 1 + m)]).map Prod.fst ++ l₁ := by
        intro l₁ w l₂ hsplit u hu
        have := hbefore (v0 :: l₁) w l₂ (by rw [hsplit, List.cons_append]) u hu
        simp only [List.map_append]
        rw [List.append_assoc]
        simpa using this
      have := ih (acc ++ [(v0, 1 + m)]) hnd' hbefore' v hvrest
      rw [hH]
      exact this

/-- C7: when the built graph is acyclic, the published critical-path
score satisfies `h(v) = 1 + max { h(u) : edge u → v }` for every node,
the max over an empty set of parents being 0 (so every source node gets
height 1); when the graph has a cycle, `topo.Sort` fails, the computation
is skipped and the score map stays empty, so every lookup yields 0. -/
theorem criticalPathScore_recurrence (issues : List Issue) (g : Graph)
    (hb : NewAnalyzer issues = some g) (hnd : g.nodes.Nodup) :
    (¬ HasCycle g → ∀ v ∈ g.nodes,
        heightsOf g v = 1 + parentMax g.edges (heightsOf g) v) ∧
    (HasCycle g → ∀ v, heightsOf g v = 0) := by
  constructor
  · intro hnc v hv
    obtain ⟨ord, hk⟩ := kahn_some_of_no_cycle hnc
    have hcs : criticalPathScores g = computeHeights g.edges ord := by
      simp only [criticalPathScores, hk]
    have hperm := kahn_perm hk
    have hordnd : ord.Nodup := hperm.nodup_iff.mpr hnd
    have hbefore : ∀ l₁ w l₂, ord = l₁ ++ w :: l₂ →
        ∀ u, (u, w) ∈ g.edges →
          u ∈ ([] : List (String × Nat)).map Prod.fst ++ l₁ := by
      intro l₁ w l₂ hsplit u he
      have hep := NewAnalyzer_edge_endpoints hb (u, w) he
      have hu : u ∈ ord := hperm.mem_iff.mpr hep.1
      have hlt := kahn_topo hk u w he hep.1 hep.2
      have hwl1 : w ∉ l₁ := by
        intro hm
        have hndsplit : (l₁ ++ w :: l₂).Nodup := hsplit ▸ hordnd
        exact (List.nodup_append.mp hndsplit).2.2 hm (List.mem_cons_self _ _)
      have hidxw : ord.indexOf w = l₁.length := by
        rw [hsplit, List.indexOf_append_of_not_mem hwl1, List.indexOf_cons_self]
        omega
      have hub : ord.indexOf u < ord.length := List.indexOf_lt_length.mpr hu
      have hgu : ord[ord.indexOf u] = u := List.getElem_indexOf hub
      have hiu : ord.indexOf u < l₁.length := by
        rw [← hidxw]; exact hlt
      have htake : ord.take l₁.length = l₁ := by
        rw [hsplit]; exact List.take_left _ _
      have hx := List.getElem_take' ord hub hiu
      rw [hgu] at hx
      have hul : u ∈ ord.take l₁.length := hx ▸ List.getElem_mem _
      rw [htake] at hul
      simpa using hul
    have hspec := computeHeights_spec ord [] (by simpa using hordnd) hbefore v
      (hperm.mem_iff.mpr hv)
    have hfold : ord.foldl (heightStep g.edges) [] = criticalPathScores g := by
      rw [hcs]; rfl
    rw [hfold] at hspec
    show (lookupH (criticalPathScores g) v).getD 0 = _
    rw [hspec]
    rfl
  · intro hcyc v
    cases hk : kahn g.edges g.nodes with
    | some ord => exact absurd hcyc (no_cycle_of_kahn_some hk)
    | none =>
      show (lookupH (criticalPathScores g) v).getD 0 = 0
      have : criticalPathScores g = [] := by
        simp only [criticalPathScores, hk]
      rw [this]
      rfl

/-- C7 (witness): the theorem applied to two concrete inputs.  On the
chain A → B the prerequisite B has two heights of dependents above it,
so `h(B) = 2 = 1 + h(A)` and the source A gets height 1; on the two-node
cycle X ⇄ Y every score reads 0. -/
theorem criticalPathScore_recurrence_witness :
    heightsOf ⟨["A", "B"], [("A", "B")]⟩ "B" =
      1 + parentMax [("A", "B")] (heightsOf ⟨["A", "B"], [("A", "B")]⟩) "B" ∧
    heightsOf ⟨["X", "Y"], [("X", "Y"), ("Y", "X")]⟩ "X" = 0 := by
  constructor
  · exact (criticalPathScore_recurrence
      [⟨"A", [⟨"A", "B", depBlocks⟩]⟩, ⟨"B", []⟩]
      ⟨["A", "B"], [("A", "B")]⟩ rfl (by decide)).1
      (@no_cycle_of_kahn_some ⟨["A", "B"], [("A", "B")]⟩ ["A", "B"] rfl)
      "B" (by decide)
  · exact (criticalPathScore_recurrence
      [⟨"X", [⟨"X", "Y", depBlocks⟩]⟩, ⟨"Y", [⟨"Y", "X", depBlocks⟩]⟩]
      ⟨["X", "Y"], [("X", "Y"), ("Y", "X")]⟩ rfl (by decide)).2
      ⟨["X", "Y"], by decide, List.cons_ne_nil _ _,
        List.chain'_cons.mpr ⟨by decide, List.chain'_singleton _⟩,
        "Y", "X", rfl, rfl, by decide⟩
      "X"

end BeadsViewer
